import Mathlib

/-!
# Verification of the Portuguese phrase-reorder game core

A shallow embedding, in Lean 4, of the problem-solving core of the
`Portuguese-phrase-reorder-game` repository:

* `src/utils/evaluate.ts` — the evaluation/merge engine (`createFragmentId`,
  `evaluateFragments`);
* `src/utils/shuffle.ts` — the seeded Fisher–Yates shuffle (`hashSeed`,
  `mulberry32`, `shuffle`);
* `src/App.tsx` — the session state machine (`createSession`, `handleReorder`,
  `handleSolve`, `handleSkip`, `handleNext`, `handleRestart`);
* `src/data/problems.ts` — the problem-set content hash
  (`createProblemSetHash`).

JavaScript 32-bit machine arithmetic is modelled on `Nat` with explicit
`% 2 ^ 32` at every point where the source converts to a 32-bit value
(`Math.imul`, `>>> 0`).  Strings fed to `charCodeAt`-style hashing are
modelled as their UTF-16 code-unit sequences (`List Nat`).  Functions that
`throw` are embedded in `Except String`.
-/

namespace PhraseReorder

/-- `TokenFragment` from `src/types.ts`: a draggable unit holding original
token positions plus a derived id and a lock flag. -/
structure TokenFragment where
  id : String
  indices : List Nat
  locked : Bool
deriving Repr, DecidableEq

/-- `EvaluationResult` from `src/utils/evaluate.ts`. -/
structure EvaluationResult where
  fragments : List TokenFragment
  lockedCount : Nat
  isSolved : Bool
deriving Repr, DecidableEq

/-- The id string `"fragment-" + sorted(indices).join("-")` built by
`createFragmentId` once its emptiness guard has passed (the source sorts a
copy of `indices` numerically and joins the decimal representations). -/
def fragmentIdString (indices : List Nat) : String :=
  "fragment-" ++ String.intercalate "-"
    ((List.insertionSort (· ≤ ·) indices).map Nat.repr)

/-- `createFragmentId` from `src/utils/evaluate.ts`: throws on an empty index
set, otherwise returns `"fragment-" + sorted indices joined by "-"`. -/
def createFragmentId (indices : List Nat) : Except String String :=
  if indices.isEmpty then
    .error "Cannot create a fragment id from an empty index set."
  else
    .ok (fragmentIdString indices)

/-- One entry of the `groups` array built inside `evaluateFragments`
(the anonymous `{ indices: number[]; locked: boolean }` objects). -/
structure TokenGroup where
  indices : List Nat
  locked : Bool
deriving Repr, DecidableEq

/-- The body of the `orderedIndices.forEach` loop of `evaluateFragments`
(`src/utils/evaluate.ts`, lines 49–63): append the token to the last group
when that group has the same lock state and its last original index is exactly
one less than this token's, otherwise start a new group. -/
def stepGroupPrev (groups : List TokenGroup) (previousGroup : TokenGroup)
    (originalIndex : Nat) (isLocked : Bool) : List TokenGroup :=
  match previousGroup.indices.getLast? with
  | some lastIndex =>
    if previousGroup.locked == isLocked && lastIndex + 1 == originalIndex then
      groups.dropLast ++
        [{ indices := previousGroup.indices ++ [originalIndex],
           locked := previousGroup.locked }]
    else
      groups ++ [{ indices := [originalIndex], locked := isLocked }]
  | none => groups ++ [{ indices := [originalIndex], locked := isLocked }]

/-- The complete loop body: when a previous group exists, defer to
`stepGroupPrev`, otherwise start the first group. -/
def stepGroup (groups : List TokenGroup) (originalIndex : Nat)
    (isLocked : Bool) : List TokenGroup :=
  match groups.getLast? with
  | some previousGroup => stepGroupPrev groups previousGroup originalIndex isLocked
  | none => groups ++ [{ indices := [originalIndex], locked := isLocked }]

/-- `tokensCorrect` of `evaluateFragments`: position `p` of the flattened
candidate is correct iff the original index placed there equals `p`. -/
def tokensCorrectList (orderedIndices : List Nat) : List Bool :=
  orderedIndices.enum.map (fun pi => pi.2 == pi.1)

/-- The `groups` array after the full `orderedIndices.forEach` loop; each
token's `isLocked` is `tokensCorrect[positionIndex]`, i.e. whether its
original index equals its position. -/
def buildGroups (orderedIndices : List Nat) : List TokenGroup :=
  orderedIndices.enum.foldl (fun groups pi => stepGroup groups pi.2 (pi.2 == pi.1)) []

/-- The `groups.map(...)` at the end of `evaluateFragments`, turning each
group into a `TokenFragment` through the throwing `createFragmentId`. -/
def groupsToFragments : List TokenGroup → Except String (List TokenFragment)
  | [] => .ok []
  | g :: gs =>
    match createFragmentId g.indices with
    | .error e => .error e
    | .ok id =>
      match groupsToFragments gs with
      | .error e => .error e
      | .ok rest => .ok ({ id := id, indices := g.indices, locked := g.locked } :: rest)

/-- The flattening of a fragment sequence into the user's candidate
permutation of original indices (the `orderedIndices` array). -/
def flattenIndices (fragments : List TokenFragment) : List Nat :=
  fragments.flatMap TokenFragment.indices

/-- `evaluateFragments` from `src/utils/evaluate.ts`: checks the total token
count against `solutionLength`, rejects duplicate original indices, marks each
flattened position correct iff it holds its own index, groups adjacent tokens
of equal lock state with consecutive original indices, and reports
`lockedCount` (number of correct positions) and `isSolved`. -/
def evaluateFragments (fragments : List TokenFragment)
    (solutionLength : Nat) : Except String EvaluationResult :=
  let totalTokens := fragments.foldl (fun sum fragment => sum + fragment.indices.length) 0
  if totalTokens ≠ solutionLength then
    .error "Token fragments do not match the expected solution length."
  else
    let orderedIndices := flattenIndices fragments
    if orderedIndices.Nodup then
      match groupsToFragments (buildGroups orderedIndices) with
      | .error e => .error e
      | .ok fragmentsResult =>
        let lockedCount := (tokensCorrectList orderedIndices).count true
        .ok { fragments := fragmentsResult
              lockedCount := lockedCount
              isSolved := lockedCount == solutionLength }
    else
      .error "Encountered duplicate token indices while evaluating fragments."

/-- The `TokenFragment` built from a group once `createFragmentId` is known to
succeed (its index list is non-empty). -/
def fragOfGroup (g : TokenGroup) : TokenFragment :=
  { id := fragmentIdString g.indices, indices := g.indices, locked := g.locked }

/-- The tokens of a group, in display order, each annotated with the group's
lock flag. -/
def groupTokens (g : TokenGroup) : List (Nat × Bool) :=
  g.indices.map (fun i => (i, g.locked))

/-- The annotated flattening of a group list. -/
def groupsTokens (gs : List TokenGroup) : List (Nat × Bool) :=
  gs.flatMap groupTokens

/-- The tokens of a fragment, each annotated with the fragment's lock flag. -/
def fragTokens (f : TokenFragment) : List (Nat × Bool) :=
  f.indices.map (fun i => (i, f.locked))

/-- The annotated flattening of a fragment list: each original index paired
with the lock flag of the fragment holding it. -/
def fragmentsTokens (fs : List TokenFragment) : List (Nat × Bool) :=
  fs.flatMap fragTokens

/-- The value `evaluateFragments` returns on the success path, as a function
of the flattened candidate permutation (used to characterise the source
function in the theorems below). -/
def evalResult (orderedIndices : List Nat) (solutionLength : Nat) : EvaluationResult :=
  let lockedCount := (tokensCorrectList orderedIndices).count true
  { fragments := (buildGroups orderedIndices).map fragOfGroup
    lockedCount := lockedCount
    isSolved := lockedCount == solutionLength }

example :
    evaluateFragments
      [⟨"fragment-1", [1], false⟩, ⟨"fragment-2", [2], false⟩,
       ⟨"fragment-0", [0], false⟩] 3 =
    .ok { fragments := [⟨"fragment-1-2", [1, 2], false⟩, ⟨"fragment-0", [0], false⟩]
          lockedCount := 0
          isSolved := false } := by rfl

example :
    evaluateFragments
      [⟨"fragment-0", [0], false⟩, ⟨"fragment-1", [1], false⟩,
       ⟨"fragment-2", [2], false⟩] 3 =
    .ok { fragments := [⟨"fragment-0-1-2", [0, 1, 2], true⟩]
          lockedCount := 3
          isSolved := true } := by rfl

example :
    evaluateFragments [⟨"fragment-0-2", [0, 2], false⟩, ⟨"fragment-1", [1], false⟩] 3 =
    .ok { fragments := [⟨"fragment-0", [0], true⟩, ⟨"fragment-2", [2], false⟩,
                        ⟨"fragment-1", [1], false⟩]
          lockedCount := 1
          isSolved := false } := by rfl

example :
    evaluateFragments [⟨"fragment-1", [1], false⟩] 1 =
    .ok { fragments := [⟨"fragment-1", [1], false⟩]
          lockedCount := 0
          isSolved := false } := by rfl

/-! ### Structure of the `groups` array -/

theorem groupsTokens_append (xs ys : List TokenGroup) :
    groupsTokens (xs ++ ys) = groupsTokens xs ++ groupsTokens ys := by
  simp [groupsTokens, List.flatMap_append]

/-- Reducing `stepGroup` on a group list with a known last element. -/
theorem stepGroup_concat (gs' : List TokenGroup) (prev : TokenGroup)
    (i : Nat) (b : Bool) :
    stepGroup (gs' ++ [prev]) i b = stepGroupPrev (gs' ++ [prev]) prev i b := by
  unfold stepGroup
  rw [List.getLast?_concat]

/-- One `forEach` iteration appends exactly the processed token (with its
lock flag) to the annotated flattening of the group list. -/
theorem stepGroup_tokens (gs : List TokenGroup) (i : Nat) (b : Bool) :
    groupsTokens (stepGroup gs i b) = groupsTokens gs ++ [(i, b)] := by
  rcases List.eq_nil_or_concat gs with rfl | ⟨gs', prev, rfl⟩
  · simp [stepGroup, groupsTokens, groupTokens]
  · rw [List.concat_eq_append, stepGroup_concat]
    unfold stepGroupPrev
    split
    · split_ifs with hc
      · have hlock : prev.locked = b := by
          have := (Bool.and_eq_true _ _).mp hc
          exact beq_iff_eq.mp this.1
        rw [List.dropLast_concat]
        simp [groupsTokens_append, groupsTokens, groupTokens, hlock]
      · simp [groupsTokens_append, groupsTokens, groupTokens]
    · simp [groupsTokens_append, groupsTokens, groupTokens]

/-- The `forEach` loop over any token prefix: the annotated flattening of the
accumulated groups is the already-processed token sequence. -/
theorem foldl_stepGroup_tokens (ts : List (Nat × Nat)) :
    ∀ gs : List TokenGroup,
      groupsTokens (ts.foldl (fun groups pi => stepGroup groups pi.2 (pi.2 == pi.1)) gs)
        = groupsTokens gs ++ ts.map (fun pi => (pi.2, pi.2 == pi.1)) := by
  induction ts with
  | nil => intro gs; simp
  | cons t ts ih =>
    intro gs
    rw [List.foldl_cons, ih, stepGroup_tokens]
    simp

/-- The annotated flattening of the full group array: the candidate
permutation with each index marked correct iff it equals its position. -/
theorem buildGroups_tokens (l : List Nat) :
    groupsTokens (buildGroups l)
      = l.enum.map (fun pi => (pi.2, pi.2 == pi.1)) := by
  rw [buildGroups, foldl_stepGroup_tokens]
  rfl

/-- Every group built by the loop carries at least one token. -/
theorem stepGroup_ne_nil (gs : List TokenGroup) (i : Nat) (b : Bool)
    (h : ∀ g ∈ gs, g.indices ≠ []) :
    ∀ g ∈ stepGroup gs i b, g.indices ≠ [] := by
  rcases List.eq_nil_or_concat gs with rfl | ⟨gs', prev, rfl⟩
  · simp [stepGroup]
  · rw [List.concat_eq_append] at h ⊢
    rw [stepGroup_concat]
    unfold stepGroupPrev
    split
    · split_ifs with hc
      · rw [List.dropLast_concat]
        intro g hg
        rcases List.mem_append.mp hg with hg' | hg'
        · exact h g (List.mem_append.mpr (Or.inl hg'))
        · simp at hg'; subst hg'; simp
      · intro g hg
        rcases List.mem_append.mp hg with hg' | hg'
        · exact h g hg'
        · simp at hg'; subst hg'; simp
    · intro g hg
      rcases List.mem_append.mp hg with hg' | hg'
      · exact h g hg'
      · simp at hg'; subst hg'; simp

theorem buildGroups_ne_nil (l : List Nat) :
    ∀ g ∈ buildGroups l, g.indices ≠ [] := by
  rw [buildGroups]
  generalize l.enum = ts
  have : ∀ (ts : List (Nat × Nat)) (gs : List TokenGroup),
      (∀ g ∈ gs, g.indices ≠ []) →
      ∀ g ∈ ts.foldl (fun groups pi => stepGroup groups pi.2 (pi.2 == pi.1)) gs,
        g.indices ≠ [] := by
    intro ts
    induction ts with
    | nil => intro gs h; simpa using h
    | cons t ts ih =>
      intro gs h
      rw [List.foldl_cons]
      exact ih _ (stepGroup_ne_nil gs t.2 (t.2 == t.1) h)
  exact this ts [] (by simp)

/-- Every group built by the loop holds consecutive ascending original
indices (each index is one more than its predecessor). -/
theorem stepGroup_chain (gs : List TokenGroup) (i : Nat) (b : Bool)
    (h : ∀ g ∈ gs, List.Chain' (fun x y => x + 1 = y) g.indices) :
    ∀ g ∈ stepGroup gs i b, List.Chain' (fun x y => x + 1 = y) g.indices := by
  rcases List.eq_nil_or_concat gs with rfl | ⟨gs', prev, rfl⟩
  · simp [stepGroup]
  · rw [List.concat_eq_append] at h ⊢
    rw [stepGroup_concat]
    unfold stepGroupPrev
    split
    · rename_i lastIndex heq
      split_ifs with hc
      · have hsucc : lastIndex + 1 = i := by
          have := (Bool.and_eq_true _ _).mp hc
          exact beq_iff_eq.mp this.2
        rw [List.dropLast_concat]
        intro g hg
        rcases List.mem_append.mp hg with hg' | hg'
        · exact h g (List.mem_append.mpr (Or.inl hg'))
        · simp at hg'
          subst hg'
          simp only []
          rw [List.chain'_append]
          refine ⟨h prev (List.mem_append.mpr (Or.inr (by simp))), List.chain'_singleton i, ?_⟩
          intro x hx y hy
          simp only [List.head?_cons, Option.mem_def, Option.some.injEq] at hy
          rw [heq] at hx
          simp only [Option.mem_def, Option.some.injEq] at hx
          subst hx; subst hy
          exact hsucc
      · intro g hg
        rcases List.mem_append.mp hg with hg' | hg'
        · exact h g hg'
        · simp at hg'; subst hg'; simp
    · intro g hg
      rcases List.mem_append.mp hg with hg' | hg'
      · exact h g hg'
      · simp at hg'; subst hg'; simp

theorem buildGroups_chain (l : List Nat) :
    ∀ g ∈ buildGroups l, List.Chain' (fun x y => x + 1 = y) g.indices := by
  rw [buildGroups]
  generalize l.enum = ts
  have : ∀ (ts : List (Nat × Nat)) (gs : List TokenGroup),
      (∀ g ∈ gs, List.Chain' (fun x y => x + 1 = y) g.indices) →
      ∀ g ∈ ts.foldl (fun groups pi => stepGroup groups pi.2 (pi.2 == pi.1)) gs,
        List.Chain' (fun x y => x + 1 = y) g.indices := by
    intro ts
    induction ts with
    | nil => intro gs h; simpa using h
    | cons t ts ih =>
      intro gs h
      rw [List.foldl_cons]
      exact ih _ (stepGroup_chain gs t.2 (t.2 == t.1) h)
  exact this ts [] (by simp)

/-- A group's indices are strictly ascending. -/
theorem buildGroups_sorted (l : List Nat) :
    ∀ g ∈ buildGroups l, List.Sorted (· < ·) g.indices := by
  intro g hg
  have hchain := buildGroups_chain l g hg
  have hlt : List.Chain' (· < ·) g.indices :=
    List.Chain'.imp (fun a b hab => by omega) hchain
  exact List.chain'_iff_pairwise.mp hlt

/-! ### The success path of `evaluateFragments` -/

theorem createFragmentId_ok (l : List Nat) (h : l ≠ []) :
    createFragmentId l = .ok (fragmentIdString l) := by
  cases l with
  | nil => exact absurd rfl h
  | cons a t => rfl

theorem groupsToFragments_ok (gs : List TokenGroup)
    (h : ∀ g ∈ gs, g.indices ≠ []) :
    groupsToFragments gs = .ok (gs.map fragOfGroup) := by
  induction gs with
  | nil => rfl
  | cons g gs ih =>
    rw [groupsToFragments, createFragmentId_ok g.indices (h g (by simp)),
      ih (fun g' hg' => h g' (by simp [hg']))]
    rfl

/-- The token-count `reduce` equals the length of the flattened candidate. -/
theorem foldl_sum_lengths (fs : List TokenFragment) :
    fs.foldl (fun sum fragment => sum + fragment.indices.length) 0
      = (flattenIndices fs).length := by
  have : ∀ (fs : List TokenFragment) (n : Nat),
      fs.foldl (fun sum fragment => sum + fragment.indices.length) n
        = n + (flattenIndices fs).length := by
    intro fs
    induction fs with
    | nil => intro n; simp [flattenIndices]
    | cons f fs ih =>
      intro n
      rw [List.foldl_cons, ih]
      simp [flattenIndices, Nat.add_assoc]
  rw [this]
  simp

/-- On a candidate that passes both guards, `evaluateFragments` succeeds and
its value is `evalResult` of the flattened candidate. -/
theorem evaluateFragments_eq_ok (fs : List TokenFragment) (n : Nat)
    (h1 : (flattenIndices fs).length = n) (h2 : (flattenIndices fs).Nodup) :
    evaluateFragments fs n = .ok (evalResult (flattenIndices fs) n) := by
  unfold evaluateFragments
  rw [foldl_sum_lengths, h1]
  simp only [if_neg (by simp : ¬ n ≠ n), if_pos h2,
    groupsToFragments_ok _ (buildGroups_ne_nil _)]
  rfl

/-- Inversion: a successful `evaluateFragments` call forces both guards and
determines the result. -/
theorem evaluateFragments_ok_inv (fs : List TokenFragment) (n : Nat)
    (r : EvaluationResult) (h : evaluateFragments fs n = .ok r) :
    (flattenIndices fs).length = n ∧ (flattenIndices fs).Nodup ∧
      r = evalResult (flattenIndices fs) n := by
  by_cases h1 : (flattenIndices fs).length = n
  · by_cases h2 : (flattenIndices fs).Nodup
    · refine ⟨h1, h2, ?_⟩
      rw [evaluateFragments_eq_ok fs n h1 h2] at h
      exact (Except.ok.inj h).symm
    · exfalso
      unfold evaluateFragments at h
      rw [foldl_sum_lengths, h1] at h
      simp [if_neg (by simp : ¬ n ≠ n), if_neg h2] at h
  · exfalso
    unfold evaluateFragments at h
    rw [foldl_sum_lengths] at h
    simp [if_pos h1] at h

/-! ### The returned fragments, token by token -/

theorem fragmentsTokens_map_fragOfGroup (gs : List TokenGroup) :
    fragmentsTokens (gs.map fragOfGroup) = groupsTokens gs := by
  simp only [fragmentsTokens, groupsTokens, List.flatMap_map]
  congr 1

theorem evalResult_tokens (l : List Nat) (n : Nat) :
    fragmentsTokens (evalResult l n).fragments
      = l.enum.map (fun pi => (pi.2, pi.2 == pi.1)) := by
  show fragmentsTokens ((buildGroups l).map fragOfGroup) = _
  rw [fragmentsTokens_map_fragOfGroup, buildGroups_tokens]

theorem flattenIndices_eq_map_fst (fs : List TokenFragment) :
    flattenIndices fs = (fragmentsTokens fs).map Prod.fst := by
  simp only [flattenIndices, fragmentsTokens, List.map_flatMap]
  congr 1
  funext f
  symm
  calc List.map Prod.fst (fragTokens f)
      = List.map (fun i => i) f.indices := by rw [fragTokens, List.map_map]; rfl
    _ = f.indices := List.map_id' f.indices

/-- Evaluation only regroups: the flattened candidate is unchanged. -/
theorem evalResult_flatten (l : List Nat) (n : Nat) :
    flattenIndices (evalResult l n).fragments = l := by
  rw [flattenIndices_eq_map_fst, evalResult_tokens, List.map_map]
  exact List.enum_map_snd l

/-- The lock flag at flattened position `p` of the result is exactly the
correctness of position `p`. -/
theorem evalResult_tokens_getElem (l : List Nat) (n p : Nat) :
    (fragmentsTokens (evalResult l n).fragments)[p]?
      = l[p]?.map (fun i => (i, i == p)) := by
  rw [evalResult_tokens, List.getElem?_map, List.getElem?_enum]
  cases l[p]? <;> rfl

/-! ### The already-solved arrangement -/

theorem enumFrom_range' (m k : Nat) :
    List.enumFrom k (List.range' k m) = (List.range' k m).map (fun i => (i, i)) := by
  induction m generalizing k with
  | zero => rfl
  | succ m ih => rw [List.range'_succ, List.enumFrom_cons, ih (k + 1)]; rfl

theorem tokensCorrectList_range (n : Nat) :
    tokensCorrectList (List.range n) = List.replicate n true := by
  rw [tokensCorrectList, List.enum_eq_enumFrom, List.range_eq_range',
    enumFrom_range', List.map_map]
  have hlen : ((List.range' 0 n).map ((fun pi : Nat × Nat => pi.2 == pi.1) ∘ fun i => (i, i))).length = n := by
    simp
  refine List.eq_replicate_of_mem ?_ |>.trans (by rw [hlen])
  intro b hb
  obtain ⟨i, _, rfl⟩ := List.mem_map.mp hb
  simp

/-! ### Concrete instances from the worked example (`["Eu", "chamo-me", "Paulo"]`) -/

/-- The initial display `["chamo-me", "Paulo", "Eu"]`: three unlocked
single-token fragments with flattened original indices `[1, 2, 0]`. -/
def exampleShuffled : List TokenFragment :=
  [⟨"fragment-1", [1], false⟩, ⟨"fragment-2", [2], false⟩, ⟨"fragment-0", [0], false⟩]

/-- The true order `["Eu", "chamo-me", "Paulo"]` as three unlocked
single-token fragments. -/
def exampleSolvedOrder : List TokenFragment :=
  [⟨"fragment-0", [0], false⟩, ⟨"fragment-1", [1], false⟩, ⟨"fragment-2", [2], false⟩]

/-- A two-token fragment covering original indices 0 and 2, placed at
positions 0 and 1 (exactly one of its tokens, index 0, is correct),
followed by the single-token fragment for index 1. -/
def exampleMixed : List TokenFragment :=
  [⟨"fragment-0-2", [0, 2], false⟩, ⟨"fragment-1", [1], false⟩]

/-! ### Claims C1–C5 and C10 -/

/-- C1, counterexample.  `exampleMixed` is accepted by `evaluateFragments`
(3 tokens for `n = 3`, no duplicates, full coverage of `0..2`), and its
two-token fragment `[0, 2]` has exactly one of its two tokens in the correct
final position; the claim asserts that this fragment then remains fully
unlocked and contributes 0 to `lockedCount`, but the code splits it, locks
the correctly-placed token, and reports `lockedCount = 1`. -/
theorem c1_counterexample :
    List.Perm (flattenIndices exampleMixed) (List.range 3) ∧
    evaluateFragments exampleMixed 3 =
      .ok { fragments := [⟨"fragment-0", [0], true⟩, ⟨"fragment-2", [2], false⟩,
                          ⟨"fragment-1", [1], false⟩]
            lockedCount := 1
            isSolved := false } ∧
    (1 : Nat) ≠ 0 := by
  refine ⟨by decide, by rfl, by decide⟩

/-- C1 (amended): correctness is decided per token, not per fragment.  In
every successful evaluation the returned fragments carry a lock flag that is
sound: the token at flattened position `p` sits in a locked returned fragment
only if it is the original index `p` itself.  But an input fragment with a
mix of correct and incorrect positions does not remain intact and unlocked:
`evaluateFragments` regroups it, its correctly-placed tokens are locked, and
each correct token adds 1 to `lockedCount` — on `exampleMixed` the two-token
fragment `[0, 2]` with one correct token yields `lockedCount = 1`, not 0. -/
theorem c1_amended :
    (∀ (fs : List TokenFragment) (n : Nat) (r : EvaluationResult),
        evaluateFragments fs n = .ok r →
        ∀ (p i : Nat), (fragmentsTokens r.fragments)[p]? = some (i, true) → i = p)
    ∧ evaluateFragments exampleMixed 3 =
      .ok { fragments := [⟨"fragment-0", [0], true⟩, ⟨"fragment-2", [2], false⟩,
                          ⟨"fragment-1", [1], false⟩]
            lockedCount := 1
            isSolved := false } := by
  constructor
  · intro fs n r h p i hget
    obtain ⟨-, -, hr⟩ := evaluateFragments_ok_inv fs n r h
    rw [hr, evalResult_tokens_getElem] at hget
    cases hl : (flattenIndices fs)[p]? with
    | none => rw [hl] at hget; exact absurd hget (by simp)
    | some j =>
      rw [hl] at hget
      simp only [Option.map_some', Option.some.injEq, Prod.mk.injEq] at hget
      obtain ⟨rfl, hj⟩ := hget
      exact beq_iff_eq.mp hj
  · rfl

/-- C2, counterexample.  On the all-incorrect arrangement with flattened
indices `[1, 2, 0]` (the worked example after Solve with no reordering), the
code merges the two unlocked fragments `[1]` and `[2]` — contiguous in the
true solution order — into one unlocked fragment `[1, 2]`: the returned
unlocked fragment's index set is not the index set of any input fragment,
contradicting "unlocked fragments are never merged". -/
theorem c2_counterexample :
    evaluateFragments exampleShuffled 3 =
      .ok { fragments := [⟨"fragment-1-2", [1, 2], false⟩, ⟨"fragment-0", [0], false⟩]
            lockedCount := 0
            isSolved := false } ∧
    [1, 2] ∉ exampleShuffled.map TokenFragment.indices := by
  refine ⟨by rfl, by decide⟩

/-- C2 (amended): `evaluateFragments` merges adjacent *unlocked* fragments
too, whenever consecutive flattened tokens carry consecutive original
indices; lock flags remain sound in that a token sits in an unlocked returned
fragment only if it is *not* at its correct position.  On `exampleShuffled`
(flattened `[1, 2, 0]`) Solve produces a merge but no lock: the unlocked
fragments `[1]` and `[2]` become the single unlocked fragment `[1, 2]`,
`lockedCount = 0`, and nothing is locked. -/
theorem c2_amended :
    (∀ (fs : List TokenFragment) (n : Nat) (r : EvaluationResult),
        evaluateFragments fs n = .ok r →
        ∀ (p i : Nat), (fragmentsTokens r.fragments)[p]? = some (i, false) → i ≠ p)
    ∧ evaluateFragments exampleShuffled 3 =
      .ok { fragments := [⟨"fragment-1-2", [1, 2], false⟩, ⟨"fragment-0", [0], false⟩]
            lockedCount := 0
            isSolved := false } := by
  constructor
  · intro fs n r h p i hget
    obtain ⟨-, -, hr⟩ := evaluateFragments_ok_inv fs n r h
    rw [hr, evalResult_tokens_getElem] at hget
    cases hl : (flattenIndices fs)[p]? with
    | none => rw [hl] at hget; exact absurd hget (by simp)
    | some j =>
      rw [hl] at hget
      simp only [Option.map_some', Option.some.injEq, Prod.mk.injEq] at hget
      obtain ⟨rfl, hj⟩ := hget
      intro hip
      rw [hip] at hj
      simp at hj
  · rfl

/-- C3, counterexample.  The fragment list `[⟨[1]⟩]` with `n = 1` has the
correct total token count and no duplicate indices, but its index union is
`{1}`, not `{0}` — full coverage of `0..n-1` fails.  The claim asserts
`evaluateFragments` fails loudly on it; the code instead returns a result. -/
theorem c3_counterexample :
    evaluateFragments [⟨"fragment-1", [1], false⟩] 1 =
      .ok { fragments := [⟨"fragment-1", [1], false⟩]
            lockedCount := 0
            isSolved := false } ∧
    (0 : Nat) ∉ flattenIndices [⟨"fragment-1", [1], false⟩] := by
  refine ⟨by rfl, by decide⟩

/-- C3 (amended): at Solve time `evaluateFragments` re-checks only part of
the §3 invariant: it succeeds exactly when the total token count equals the
solution length and no original index is duplicated.  Full coverage of
`0..n-1` is *not* re-checked — an out-of-range index with correct count and
no duplicates yields a normal result, not an error. -/
theorem c3_amended (fs : List TokenFragment) (n : Nat) :
    (∃ r, evaluateFragments fs n = .ok r) ↔
      ((flattenIndices fs).length = n ∧ (flattenIndices fs).Nodup) := by
  constructor
  · rintro ⟨r, hr⟩
    obtain ⟨h1, h2, -⟩ := evaluateFragments_ok_inv fs n r hr
    exact ⟨h1, h2⟩
  · rintro ⟨h1, h2⟩
    exact ⟨_, evaluateFragments_eq_ok fs n h1 h2⟩

/-- C4: on any fragment list arranged in solution order (flattened original
indices `0, 1, ..., n-1`) with `n ≥ 1`, `evaluateFragments` succeeds with
`lockedCount = n` and `isSolved = true`; on the worked example's true order
it returns the single locked fragment spanning all three indices. -/
theorem c4_solution_order :
    (∀ (fs : List TokenFragment) (n : Nat), 1 ≤ n →
        flattenIndices fs = List.range n →
        ∃ r, evaluateFragments fs n = .ok r ∧ r.lockedCount = n ∧ r.isSolved = true)
    ∧ evaluateFragments exampleSolvedOrder 3 =
      .ok { fragments := [⟨"fragment-0-1-2", [0, 1, 2], true⟩]
            lockedCount := 3
            isSolved := true } := by
  constructor
  · intro fs n _ hflat
    have h1 : (flattenIndices fs).length = n := by rw [hflat]; exact List.length_range n
    have h2 : (flattenIndices fs).Nodup := by rw [hflat]; exact List.nodup_range n
    refine ⟨evalResult (flattenIndices fs) n, evaluateFragments_eq_ok fs n h1 h2, ?_, ?_⟩
    · show (tokensCorrectList (flattenIndices fs)).count true = n
      rw [hflat, tokensCorrectList_range]
      simp [List.count_replicate]
    · show ((tokensCorrectList (flattenIndices fs)).count true == n) = true
      rw [hflat, tokensCorrectList_range]
      simp [List.count_replicate]
  · rfl

/-- C4 witness: the general statement of `c4_solution_order` applied to the
worked example's true order. -/
theorem c4_witness :
    1 ≤ 3 ∧ flattenIndices exampleSolvedOrder = List.range 3 ∧
    ∃ r, evaluateFragments exampleSolvedOrder 3 = .ok r ∧
      r.lockedCount = 3 ∧ r.isSolved = true :=
  ⟨by decide, by decide,
    c4_solution_order.1 exampleSolvedOrder 3 (by decide) (by decide)⟩

/-- C5: `evaluateFragments` is idempotent — re-evaluating its own returned
fragment sequence (same order) returns the identical result: same fragments
(ids, indices, lock flags), same `lockedCount`, same `isSolved`. -/
theorem c5_idempotent (fs : List TokenFragment) (n : Nat) (r : EvaluationResult)
    (h : evaluateFragments fs n = .ok r) :
    evaluateFragments r.fragments n = .ok r := by
  obtain ⟨h1, h2, hr⟩ := evaluateFragments_ok_inv fs n r h
  have hfl : flattenIndices r.fragments = flattenIndices fs := by
    rw [hr]; exact evalResult_flatten _ _
  rw [evaluateFragments_eq_ok r.fragments n (by rw [hfl]; exact h1) (by rw [hfl]; exact h2),
    hfl, ← hr]

/-- C5 witness: idempotence at the worked example's shuffled arrangement. -/
theorem c5_witness :
    evaluateFragments
      [⟨"fragment-1-2", [1, 2], false⟩, ⟨"fragment-0", [0], false⟩] 3 =
    .ok { fragments := [⟨"fragment-1-2", [1, 2], false⟩, ⟨"fragment-0", [0], false⟩]
          lockedCount := 0
          isSolved := false } :=
  c5_idempotent exampleShuffled 3
    { fragments := [⟨"fragment-1-2", [1, 2], false⟩, ⟨"fragment-0", [0], false⟩]
      lockedCount := 0
      isSolved := false } (by rfl)

/-- C10 (implicit): a successful evaluation never drops, duplicates or
invents an index — the returned fragments cover the same multiset of
original indices as the input — and within each returned fragment the
indices are strictly ascending. -/
theorem c10_regroup_conservation (fs : List TokenFragment) (n : Nat)
    (r : EvaluationResult) (h : evaluateFragments fs n = .ok r) :
    List.Perm (flattenIndices r.fragments) (flattenIndices fs) ∧
      ∀ f ∈ r.fragments, List.Sorted (· < ·) f.indices := by
  obtain ⟨-, -, hr⟩ := evaluateFragments_ok_inv fs n r h
  constructor
  · rw [hr, evalResult_flatten]
  · intro f hf
    rw [hr] at hf
    have hf' : f ∈ (buildGroups (flattenIndices fs)).map fragOfGroup := hf
    obtain ⟨g, hg, rfl⟩ := List.mem_map.mp hf'
    exact buildGroups_sorted _ g hg

/-- C10 witness: conservation at the worked example's shuffled arrangement. -/
theorem c10_witness :
    List.Perm
      (flattenIndices [⟨"fragment-1-2", [1, 2], false⟩, ⟨"fragment-0", [0], false⟩])
      (flattenIndices exampleShuffled) ∧
    ∀ f ∈ [⟨"fragment-1-2", [1, 2], false⟩, (⟨"fragment-0", [0], false⟩ : TokenFragment)],
      List.Sorted (· < ·) f.indices := by
  have := c10_regroup_conservation exampleShuffled 3
    { fragments := [⟨"fragment-1-2", [1, 2], false⟩, ⟨"fragment-0", [0], false⟩]
      lockedCount := 0
      isSolved := false } (by rfl)
  exact this

/-! ## Seeded shuffle (`src/utils/shuffle.ts`)

JavaScript numbers under 32-bit bitwise operations are modelled by their
unsigned 32-bit patterns: `Math.imul` is multiplication `% 2^32`, `>>> 0` is
`% 2^32`, and `x | 1`, `x | 61`, xors and right-shifts act on those patterns
(`Nat.lor`, `Nat.xor`, `Nat.shiftRight` agree with JS on them). -/

/-- `2^32`, the modulus of JavaScript's 32-bit integer conversions. -/
def two32 : Nat := 4294967296

/-- `Math.imul`: 32-bit integer multiplication (the result's bit pattern). -/
def imul (a b : Nat) : Nat := a * b % two32

/-- A shuffle seed: `string | number` from the source.  Numeric seeds are
modelled as integers (the source applies `Math.floor` first, so only the
integral value matters); string seeds as their UTF-16 code-unit sequences
(what `charCodeAt` reads). -/
inductive Seed where
  | num (value : Int)
  | str (codeUnits : List Nat)
deriving Repr, DecidableEq

/-- `hashSeed` from `src/utils/shuffle.ts`: a finite numeric seed is floored
and converted with `>>> 0`; otherwise the text is folded with FNV-1a
(xor the code unit, multiply by `0x01000193`, 32-bit).  An all-zero result is
replaced by the fixed fallback `0x1a2b3c4d`. -/
def hashSeed : Seed → Nat
  | .num value =>
    let normalized := (value % (4294967296 : Int)).toNat
    if normalized = 0 then 0x1a2b3c4d else normalized
  | .str text =>
    let hash := text.foldl (fun hash c => imul (hash ^^^ c) 0x01000193) 0x811c9dc5
    let hash := hash % two32
    if hash = 0 then 0x1a2b3c4d else hash

/-- One call of the `mulberry32` closure, with `t` the already-advanced
counter (the source does `t += 0x6d2b79f5` before computing); the returned
32-bit numerator `k` stands for the float `k / 2^32 ∈ [0, 1)`. -/
def mulberryOutput (t : Nat) : Nat :=
  let t := t % two32
  let r := imul (t ^^^ (t >>> 15)) (t ||| 1)
  let r := r ^^^ ((r + imul (r ^^^ (r >>> 7)) (r ||| 61)) % two32)
  (r ^^^ (r >>> 14)) % two32

/-- The destructuring swap
`[result[index], result[swapIndex]] = [result[swapIndex], result[index]]`. -/
def swapAt {α : Type} (l : List α) (i j : Nat) : List α :=
  match l[i]?, l[j]? with
  | some a, some b => (l.set i b).set j a
  | _, _ => l

/-- The Fisher–Yates `for` loop of `shuffle`, from `index` down to 1; `t` is
the mulberry32 counter.  `Math.floor(random() * (index + 1))` is modelled
exactly as `k * (index + 1) / 2^32` in integer arithmetic (the float product
is exact for every list short enough to exist in memory). -/
def shuffleLoop {α : Type} (t : Nat) (result : List α) : Nat → List α
  | 0 => result
  | j + 1 =>
    let t' := t + 0x6d2b79f5
    let k := mulberryOutput t'
    let swapIndex := k * (j + 1 + 1) / two32
    shuffleLoop t' (swapAt result (j + 1) swapIndex) j

/-- `shuffle` from `src/utils/shuffle.ts`: copy the input, return it
unchanged when shorter than 2, otherwise run Fisher–Yates driven by the
seeded mulberry32 generator. -/
def shuffle {α : Type} (items : List α) (seed : Seed) : List α :=
  let result := items
  if result.length < 2 then result
  else shuffleLoop (hashSeed seed) result (result.length - 1)

/-! ### Shuffle is a deterministic permutation -/

theorem cons_set_perm {α : Type} :
    ∀ (t : List α) (m : Nat) (a b : α), t[m]? = some b →
      List.Perm (b :: t.set m a) (a :: t) := by
  intro t
  induction t with
  | nil => intro m a b hm; simp at hm
  | cons x t ih =>
    intro m a b hm
    cases m with
    | zero =>
      simp only [List.getElem?_cons_zero, Option.some.injEq] at hm
      rw [List.set_cons_zero, hm]
      exact List.Perm.swap a b t
    | succ m =>
      simp only [List.getElem?_cons_succ] at hm
      rw [List.set_cons_succ]
      exact (List.Perm.swap x b (t.set m a)).trans
        ((List.Perm.cons x (ih m a b hm)).trans (List.Perm.swap a x t))

theorem set_set_swap_perm {α : Type} :
    ∀ (l : List α) (i j : Nat) (a b : α), l[i]? = some a → l[j]? = some b →
      List.Perm ((l.set i b).set j a) l := by
  intro l
  induction l with
  | nil => intro i j a b hi _; simp at hi
  | cons x t ih =>
    intro i j a b hi hj
    cases i with
    | zero =>
      simp only [List.getElem?_cons_zero, Option.some.injEq] at hi
      cases j with
      | zero =>
        simp only [List.getElem?_cons_zero, Option.some.injEq] at hj
        rw [List.set_cons_zero, List.set_cons_zero, hi]
      | succ j =>
        simp only [List.getElem?_cons_succ] at hj
        rw [List.set_cons_zero, List.set_cons_succ, hi]
        exact cons_set_perm t j a b hj
    | succ i =>
      simp only [List.getElem?_cons_succ] at hi
      cases j with
      | zero =>
        simp only [List.getElem?_cons_zero, Option.some.injEq] at hj
        rw [List.set_cons_succ, List.set_cons_zero, hj]
        exact cons_set_perm t i b a hi
      | succ j =>
        simp only [List.getElem?_cons_succ] at hj
        rw [List.set_cons_succ, List.set_cons_succ]
        exact List.Perm.cons x (ih i j a b hi hj)

theorem swapAt_perm {α : Type} (l : List α) (i j : Nat) :
    List.Perm (swapAt l i j) l := by
  unfold swapAt
  cases hi : l[i]? with
  | none => cases hj : l[j]? <;> exact List.Perm.refl l
  | some a =>
    cases hj : l[j]? with
    | none => exact List.Perm.refl l
    | some b => exact set_set_swap_perm l i j a b hi hj

theorem shuffleLoop_perm {α : Type} :
    ∀ (idx : Nat) (t : Nat) (l : List α), List.Perm (shuffleLoop t l idx) l := by
  intro idx
  induction idx with
  | zero => intro t l; exact List.Perm.refl l
  | succ j ih =>
    intro t l
    rw [shuffleLoop]
    exact (ih _ _).trans (swapAt_perm l (j + 1) _)

/-- C6: `shuffle` is deterministic in the seed (equal seeds give equal
output), always returns a permutation of its input (same length, same
multiset of elements), and returns lists of length < 2 as an equal-valued
copy unchanged. -/
theorem c6_shuffle :
    (∀ (α : Type) (xs : List α) (s1 s2 : Seed), s1 = s2 →
        shuffle xs s1 = shuffle xs s2)
    ∧ (∀ (α : Type) (xs : List α) (seed : Seed), List.Perm (shuffle xs seed) xs)
    ∧ (∀ (α : Type) (xs : List α) (seed : Seed), xs.length < 2 → shuffle xs seed = xs) := by
  refine ⟨fun α xs s1 s2 h => by rw [h], fun α xs seed => ?_, fun α xs seed h => by
    simp only [shuffle, if_pos h]⟩
  by_cases h : xs.length < 2
  · simp only [shuffle, if_pos h]
    exact List.Perm.refl xs
  · simp only [shuffle, if_neg h]
    exact shuffleLoop_perm _ _ xs

/-- C6 witness: a concrete three-element shuffle, its determinism, its
permutation property, and the short-list case at a concrete input. -/
theorem c6_witness :
    shuffle [10, 20, 30] (Seed.str [97]) = shuffle [10, 20, 30] (Seed.str [97]) ∧
    List.Perm (shuffle [10, 20, 30] (Seed.str [97])) [10, 20, 30] ∧
    shuffle [5] (Seed.num 7) = [5] :=
  ⟨c6_shuffle.1 Nat [10, 20, 30] (Seed.str [97]) (Seed.str [97]) rfl,
   c6_shuffle.2.1 Nat [10, 20, 30] (Seed.str [97]),
   c6_shuffle.2.2 Nat [5] (Seed.num 7) (by decide)⟩

/-! ## Session state machine (`src/App.tsx`)

Strings carried by the data model (tokens, notes, seeds) are modelled as
UTF-16 code-unit sequences, since the core only ever measures them
(`tokens.length`), joins them for display, or hashes their code units. -/

/-- `Problem` from `src/types.ts`. -/
structure Problem where
  tokens : List (List Nat)
  note : List Nat
deriving Repr, DecidableEq

/-- `ProblemProgress` from `src/App.tsx`. -/
structure ProblemProgress where
  fragments : List TokenFragment
  solved : Bool
deriving Repr, DecidableEq

/-- `SessionState` from `src/App.tsx` (`current: number | null`). -/
structure SessionState where
  current : Option Nat
  queue : List Nat
  progress : List ProblemProgress
deriving Repr, DecidableEq

/-- The code units of the decimal representation of `n` (what interpolating
a number into a template string produces). -/
def natCodeUnits (n : Nat) : List Nat :=
  (Nat.repr n).data.map Char.toNat

/-- `createInitialFragments` from `src/App.tsx`: one unlocked single-token
fragment per token, shuffled with the given seed, then copied. -/
def createInitialFragments (problem : Problem) (seed : List Nat) : List TokenFragment :=
  let baseFragments := problem.tokens.enum.map
    (fun ti => ({ id := fragmentIdString [ti.1], indices := [ti.1], locked := false }
      : TokenFragment))
  (shuffle baseFragments (Seed.str seed)).map
    (fun fragment => { id := fragment.id, indices := fragment.indices, locked := false })

/-- `createSession` from `src/App.tsx`: empty problem set gives the empty
session; otherwise `order = [0, ..., n-1]` is destructured into
`current = 0` and `queue = [1, ..., n-1]`, and every problem gets its shuffled
initial fragments under the derived seed `` `${seed}-${index}` `` (code unit
45 is the dash). -/
def createSession (problems : List Problem) (seed : List Nat) : SessionState :=
  if problems.length = 0 then { current := none, queue := [], progress := [] }
  else
    match List.range problems.length with
    | [] => { current := none, queue := [], progress := [] }
    | current :: queue =>
      { current := some current
        queue := queue
        progress := problems.enum.map (fun pi =>
          { fragments := createInitialFragments pi.2 (seed ++ 45 :: natCodeUnits pi.1)
            solved := false }) }

/-- `handleReorder` from `src/App.tsx`: no-op without a current problem,
otherwise replace only the current problem's fragments, keeping `solved`. -/
def handleReorder (nextFragments : List TokenFragment) (s : SessionState) : SessionState :=
  match s.current with
  | none => s
  | some activeIndex =>
    { s with progress := s.progress.enum.map (fun pi =>
        if pi.1 = activeIndex then
          { fragments := nextFragments, solved := pi.2.solved }
        else pi.2) }

/-- `handleSolve` from `src/App.tsx`: evaluate the current problem's
fragments against its token count, store the merged fragments, or `solved`
with the evaluation's verdict, and drop the current index from the queue when
solved.  Reading `progress[activeIndex]` of an out-of-range index would throw
in JavaScript (`undefined.fragments`), as would a contract violation inside
`evaluateFragments`. -/
def handleSolve (problems : List Problem) (s : SessionState) :
    Except String SessionState :=
  match s.current with
  | none => .ok s
  | some activeIndex =>
    match problems[activeIndex]? with
    | none => .ok s
    | some problem =>
      match s.progress[activeIndex]? with
      | none => .error "TypeError: cannot read properties of undefined"
      | some progressEntry =>
        match evaluateFragments progressEntry.fragments problem.tokens.length with
        | .error e => .error e
        | .ok evaluation =>
          .ok { s with
            progress := s.progress.enum.map (fun pi =>
              if pi.1 = activeIndex then
                { fragments := evaluation.fragments
                  solved := pi.2.solved || evaluation.isSolved }
              else pi.2)
            queue := if evaluation.isSolved then
                s.queue.filter (fun index => index != activeIndex)
              else s.queue }

/-- `handleSkip` from `src/App.tsx`: no-op without a current problem, when it
is already solved, or when the queue is empty; otherwise rotate — the queue's
front becomes `current` and the old current goes to the back. -/
def handleSkip (s : SessionState) : Except String SessionState :=
  match s.current with
  | none => .ok s
  | some activeIndex =>
    match s.progress[activeIndex]? with
    | none => .error "TypeError: cannot read properties of undefined"
    | some progressEntry =>
      if progressEntry.solved || s.queue.length == 0 then .ok s
      else
        match s.queue with
        | [] => .ok s
        | next :: rest =>
          .ok { s with current := some next, queue := rest ++ [activeIndex] }

/-- `handleNext` from `src/App.tsx`: no-op on an empty queue; otherwise the
queue's front becomes `current` and the old current is dropped. -/
def handleNext (s : SessionState) : SessionState :=
  match s.queue with
  | [] => s
  | next :: rest => { s with current := some next, queue := rest }

/-- `handleRestart` from `src/App.tsx`: no-op without problems, otherwise a
brand-new randomized session (a fresh seed is drawn externally). -/
def handleRestart (problems : List Problem) (seed : List Nat) (s : SessionState) :
    SessionState :=
  if problems.length = 0 then s else createSession problems seed

/-- One user-driven transition of the session state machine. -/
inductive SessionStep (problems : List Problem) : SessionState → SessionState → Prop where
  | reorder (nextFragments : List TokenFragment) (s : SessionState) :
      SessionStep problems s (handleReorder nextFragments s)
  | solve (s s' : SessionState) :
      handleSolve problems s = .ok s' → SessionStep problems s s'
  | skip (s s' : SessionState) :
      handleSkip s = .ok s' → SessionStep problems s s'
  | next (s : SessionState) : SessionStep problems s (handleNext s)
  | restart (seed : List Nat) (s : SessionState) :
      SessionStep problems s (handleRestart problems seed s)

/-- The states reachable from `Initialize(problems, seed)` through the
transitions of the state machine. -/
inductive ReachableSession (problems : List Problem) : SessionState → Prop where
  | init (seed : List Nat) : ReachableSession problems (createSession problems seed)
  | step {s s' : SessionState} : ReachableSession problems s →
      SessionStep problems s s' → ReachableSession problems s'

/-- The §3 `SessionState` invariants named by the spec: `current` never sits
in `queue`, the queue indices are distinct, and there is one progress entry
per problem. -/
def SessionInv (problems : List Problem) (s : SessionState) : Prop :=
  (∀ a, s.current = some a → a ∉ s.queue) ∧ s.queue.Nodup ∧
    s.progress.length = problems.length

/-! ### Invariant preservation, transition by transition -/

theorem createSession_inv (problems : List Problem) (seed : List Nat) :
    SessionInv problems (createSession problems seed) := by
  unfold createSession SessionInv
  cases hn : problems.length with
  | zero => simp
  | succ m =>
    rw [if_neg (by omega), List.range_succ_eq_map]
    refine ⟨?_, ?_, ?_⟩
    · intro a ha
      simp only [Option.some.injEq] at ha
      subst ha
      intro hmem
      obtain ⟨x, -, hx⟩ := List.mem_map.mp hmem
      omega
    · exact (List.nodup_range m).map (fun x y h => Nat.succ_injective h)
    · rw [List.length_map, List.enum_length, hn]

theorem handleReorder_inv (problems : List Problem) (nextFragments : List TokenFragment)
    (s : SessionState) (h : SessionInv problems s) :
    SessionInv problems (handleReorder nextFragments s) := by
  obtain ⟨h1, h2, h3⟩ := h
  unfold handleReorder
  split
  · exact ⟨h1, h2, h3⟩
  · refine ⟨fun a ha => h1 a ha, h2, ?_⟩
    show (s.progress.enum.map _).length = problems.length
    rw [List.length_map, List.enum_length]
    exact h3

theorem handleSolve_inv (problems : List Problem) (s s' : SessionState)
    (hstep : handleSolve problems s = .ok s') (h : SessionInv problems s) :
    SessionInv problems s' := by
  obtain ⟨h1, h2, h3⟩ := h
  unfold handleSolve at hstep
  split at hstep
  · cases hstep; exact ⟨h1, h2, h3⟩
  next activeIndex heqcur =>
    split at hstep
    · cases hstep; exact ⟨h1, h2, h3⟩
    next problem heqpr =>
      split at hstep
      · exact Except.noConfusion hstep
      next progressEntry heqpe =>
        split at hstep
        · exact Except.noConfusion hstep
        next evaluation heqev =>
          cases hstep
          refine ⟨?_, ?_, ?_⟩
          · intro a ha
            have ha' : s.current = some a := ha
            rw [heqcur] at ha'
            have hax : activeIndex = a := Option.some.inj ha'
            subst hax
            show activeIndex ∉ (if evaluation.isSolved = true then
                s.queue.filter (fun index => index != activeIndex)
              else s.queue)
            by_cases hsol : evaluation.isSolved = true
            · rw [if_pos hsol]
              intro hmem
              have := (List.mem_filter.mp hmem).2
              simp at this
            · rw [if_neg hsol]
              exact h1 activeIndex heqcur
          · show (if evaluation.isSolved = true then
                s.queue.filter (fun index => index != activeIndex)
              else s.queue).Nodup
            by_cases hsol : evaluation.isSolved = true
            · rw [if_pos hsol]
              exact h2.filter _
            · rw [if_neg hsol]
              exact h2
          · show (s.progress.enum.map _).length = problems.length
            rw [List.length_map, List.enum_length]
            exact h3

theorem handleSkip_inv (problems : List Problem) (s s' : SessionState)
    (hstep : handleSkip s = .ok s') (h : SessionInv problems s) :
    SessionInv problems s' := by
  obtain ⟨h1, h2, h3⟩ := h
  unfold handleSkip at hstep
  split at hstep
  · cases hstep; exact ⟨h1, h2, h3⟩
  next activeIndex heqcur =>
    split at hstep
    · exact Except.noConfusion hstep
    next progressEntry heqpe =>
      split at hstep
      · cases hstep; exact ⟨h1, h2, h3⟩
      · split at hstep
        · cases hstep; exact ⟨h1, h2, h3⟩
        next nxt rest heqq =>
          cases hstep
          have hnotq : activeIndex ∉ s.queue := h1 activeIndex heqcur
          rw [heqq] at hnotq h2
          have hnxt_rest : nxt ∉ rest := (List.nodup_cons.mp h2).1
          have hrest : rest.Nodup := (List.nodup_cons.mp h2).2
          refine ⟨?_, ?_, h3⟩
          · intro a ha
            have ha' : some nxt = some a := ha
            have hax : nxt = a := Option.some.inj ha'
            subst hax
            show nxt ∉ rest ++ [activeIndex]
            intro hmem
            rcases List.mem_append.mp hmem with hm | hm
            · exact hnxt_rest hm
            · simp only [List.mem_singleton] at hm
              subst hm
              exact hnotq (List.mem_cons_self _ _)
          · show (rest ++ [activeIndex]).Nodup
            rw [List.nodup_append]
            refine ⟨hrest, List.nodup_singleton _, ?_⟩
            intro x hx hx'
            simp only [List.mem_singleton] at hx'
            subst hx'
            exact hnotq (List.mem_cons_of_mem _ hx)

theorem handleNext_inv (problems : List Problem) (s : SessionState)
    (h : SessionInv problems s) : SessionInv problems (handleNext s) := by
  obtain ⟨h1, h2, h3⟩ := h
  unfold handleNext
  split
  · exact ⟨h1, h2, h3⟩
  next nxt rest heqq =>
    rw [heqq] at h2
    refine ⟨?_, (List.nodup_cons.mp h2).2, h3⟩
    intro a ha
    have hax : nxt = a := Option.some.inj ha
    subst hax
    show nxt ∉ rest
    exact (List.nodup_cons.mp h2).1

theorem handleRestart_inv (problems : List Problem) (seed : List Nat)
    (s : SessionState) (h : SessionInv problems s) :
    SessionInv problems (handleRestart problems seed s) := by
  unfold handleRestart
  split
  · exact h
  · exact createSession_inv problems seed

/-! ### Claims C7 and C8 -/

/-- C7: Skip rotates the queue — with an unsolved current problem `a` and
queue `b :: rest`, the new state has `current = b` and `queue = rest ++ [a]`
(for `queue = [B, C, ...rest]` this is `current = B`, `queue = [C, ...rest, A]`)
— and Skip is a no-op when there is no current problem, when the current
problem is already solved, or when the queue is empty. -/
theorem c7_skip_rotation :
    (∀ (s : SessionState) (a : Nat) (pa : ProblemProgress) (b : Nat) (rest : List Nat),
        s.current = some a → s.progress[a]? = some pa → pa.solved = false →
        s.queue = b :: rest →
        handleSkip s = .ok { s with current := some b, queue := rest ++ [a] })
    ∧ (∀ s : SessionState, s.current = none → handleSkip s = .ok s)
    ∧ (∀ (s : SessionState) (a : Nat) (pa : ProblemProgress),
        s.current = some a → s.progress[a]? = some pa → pa.solved = true →
        handleSkip s = .ok s)
    ∧ (∀ (s : SessionState) (a : Nat) (pa : ProblemProgress),
        s.current = some a → s.progress[a]? = some pa → s.queue = [] →
        handleSkip s = .ok s) := by
  refine ⟨?_, ?_, ?_, ?_⟩
  · intro s a pa b rest hcur hpe hsolved hq
    unfold handleSkip
    split
    next heq => exact Option.noConfusion (heq.symm.trans hcur)
    next activeIndex heq =>
      have hax : activeIndex = a := Option.some.inj (heq.symm.trans hcur)
      subst hax
      split
      next heq2 => exact Option.noConfusion (heq2.symm.trans hpe)
      next progressEntry heq2 =>
        have hpa : progressEntry = pa := Option.some.inj (heq2.symm.trans hpe)
        subst hpa
        rw [hsolved, hq, if_neg (by simp)]
  · intro s hcur
    unfold handleSkip
    split
    next => rfl
    next activeIndex heq => exact Option.noConfusion (hcur.symm.trans heq)
  · intro s a pa hcur hpe hsolved
    unfold handleSkip
    split
    next => rfl
    next activeIndex heq =>
      have hax : activeIndex = a := Option.some.inj (heq.symm.trans hcur)
      subst hax
      split
      next heq2 => exact Option.noConfusion (heq2.symm.trans hpe)
      next progressEntry heq2 =>
        have hpa : progressEntry = pa := Option.some.inj (heq2.symm.trans hpe)
        subst hpa
        rw [if_pos (by simp [hsolved])]
  · intro s a pa hcur hpe hq
    unfold handleSkip
    split
    next => rfl
    next activeIndex heq =>
      have hax : activeIndex = a := Option.some.inj (heq.symm.trans hcur)
      subst hax
      split
      next heq2 => exact Option.noConfusion (heq2.symm.trans hpe)
      next progressEntry heq2 =>
        have hpa : progressEntry = pa := Option.some.inj (heq2.symm.trans hpe)
        subst hpa
        rw [hq, if_pos (by simp)]

/-- C7 witness: the rotation at a concrete session
(`current = 0`, `queue = [1, 2]`, nothing solved). -/
theorem c7_witness :
    handleSkip
      { current := some 0, queue := [1, 2],
        progress := [⟨[], false⟩, ⟨[], false⟩, ⟨[], false⟩] } =
    .ok { current := some 1, queue := [2, 0],
          progress := [⟨[], false⟩, ⟨[], false⟩, ⟨[], false⟩] } :=
  c7_skip_rotation.1
    { current := some 0, queue := [1, 2],
      progress := [⟨[], false⟩, ⟨[], false⟩, ⟨[], false⟩] }
    0 ⟨[], false⟩ 1 [2] rfl rfl rfl rfl

/-- C8: every state reachable from `Initialize` through Reorder, Solve, Skip,
Next and Restart satisfies the `SessionState` invariants — `current` is never
an element of `queue`, the queue holds distinct problem indices, and
`progress.length` equals the number of problems. -/
theorem c8_session_invariants (problems : List Problem) (s : SessionState)
    (h : ReachableSession problems s) :
    (∀ a, s.current = some a → a ∉ s.queue) ∧ s.queue.Nodup ∧
      s.progress.length = problems.length := by
  induction h with
  | init seed => exact createSession_inv problems seed
  | step hreach hstep ih =>
    cases hstep with
    | reorder nextFragments s => exact handleReorder_inv problems nextFragments _ ih
    | solve s s' hs => exact handleSolve_inv problems _ _ hs ih
    | skip s s' hs => exact handleSkip_inv problems _ _ hs ih
    | next s => exact handleNext_inv problems _ ih
    | restart seed s => exact handleRestart_inv problems seed _ ih

/-- C8 witness: the invariants at the initial session of the empty problem
set, reachable by `Initialize`. -/
theorem c8_witness :
    (∀ a, (createSession [] []).current = some a → a ∉ (createSession [] []).queue) ∧
    (createSession [] []).queue.Nodup ∧
    (createSession [] []).progress.length = ([] : List Problem).length :=
  c8_session_invariants [] (createSession [] []) (ReachableSession.init [])

/-! ## Problem-set content hash (`src/data/problems.ts`)

`createProblemSetHash` serializes the problem array with `JSON.stringify`
and folds the serialization's code units with the same 32-bit FNV-1a as the
shuffle's `hashSeed`; the returned key is
`` `problems-${length hex, padStart 6}-${digest hex, padStart 8}` ``. -/

/-- The code units of an ASCII string literal. -/
def strUnits (s : String) : List Nat :=
  s.data.map Char.toNat

/-- A lowercase hexadecimal digit character, as `Number.prototype.toString(16)`
produces (only ever applied to `d < 16`). -/
def hexChar (d : Nat) : Char :=
  if d < 10 then Char.ofNat (48 + d) else Char.ofNat (87 + d)

/-- Fuel-driven base-16 expansion, most significant digit first. -/
def hexDigitsAux : Nat → Nat → List Char
  | 0, _ => []
  | fuel + 1, n => if n = 0 then [] else hexDigitsAux fuel (n / 16) ++ [hexChar (n % 16)]

/-- `n.toString(16)`: lowercase hexadecimal digits, `"0"` for zero. -/
def hexDigits (n : Nat) : List Char :=
  if n = 0 then ['0'] else hexDigitsAux n n

/-- `String.prototype.padStart(width, "0")` (a no-op on longer strings). -/
def padStartZeros (s : List Char) (width : Nat) : List Char :=
  List.replicate (width - s.length) '0' ++ s

/-- `JSON.stringify`'s escaping of one string code unit: quote and backslash
escaped, the five short escapes, other control characters as `\u00xx`; any
other unit is copied.  (The well-formed-stringify escape of lone surrogates
cannot trigger on problem data and is not modelled.) -/
def jsonEscapeUnit (c : Nat) : List Nat :=
  if c = 34 then [92, 34]
  else if c = 92 then [92, 92]
  else if c = 8 then [92, 98]
  else if c = 9 then [92, 116]
  else if c = 10 then [92, 110]
  else if c = 12 then [92, 102]
  else if c = 13 then [92, 114]
  else if c < 32 then [92, 117, 48, 48, (hexChar (c / 16)).toNat, (hexChar (c % 16)).toNat]
  else [c]

/-- `JSON.stringify` of a string: double-quoted, escaped. -/
def jsonStringUnits (s : List Nat) : List Nat :=
  34 :: s.flatMap jsonEscapeUnit ++ [34]

/-- `JSON.stringify` of one problem object; `normalizeProblems` builds the
objects with `tokens` first and `note` second, which fixes the property
order. -/
def jsonProblem (p : Problem) : List Nat :=
  strUnits "\x7b\"tokens\":[" ++
    List.intercalate [44] (p.tokens.map jsonStringUnits) ++
    strUnits "],\"note\":" ++ jsonStringUnits p.note ++ strUnits "\x7d"

/-- `JSON.stringify` of the whole problem array (code units 91/93 are the
brackets, 44 the comma). -/
def jsonProblemSet (problems : List Problem) : List Nat :=
  91 :: List.intercalate [44] (problems.map jsonProblem) ++ [93]

/-- `hashText` from `src/data/problems.ts`: 32-bit FNV-1a over the text,
with the final `>>> 0`. -/
def hashText (value : List Nat) : Nat :=
  (value.foldl (fun hash c => imul (hash ^^^ c) 0x01000193) 0x811c9dc5) % two32

/-- `createProblemSetHash` from `src/data/problems.ts`. -/
def createProblemSetHash (problems : List Problem) : String :=
  let serialized := jsonProblemSet problems
  let digest := padStartZeros (hexDigits (hashText serialized)) 8
  let lengthComponent := padStartZeros (hexDigits serialized.length) 6
  "problems-" ++ String.mk lengthComponent ++ "-" ++ String.mk digest

/-- A one-problem set whose serialization is
`[{"tokens":["a"],"note":"KuL1HSVN"}]`. -/
def collideA : List Problem :=
  [{ tokens := [[97]], note := [75, 117, 76, 49, 72, 83, 86, 78] }]

/-- The same set with the note replaced by `"26Je6ZBG"` — same serialized
length and, by construction, the same FNV-1a digest. -/
def collideB : List Problem :=
  [{ tokens := [[97]], note := [50, 54, 74, 101, 54, 90, 66, 71] }]

example : createProblemSetHash collideA = "problems-000024-2385d838" := by rfl

/-! ### Hexadecimal components are parseable back -/

theorem hexChar_zero_iff : ∀ d, d < 16 → (hexChar d = '0' ↔ d = 0) := by decide

theorem hexChar_inj16 : ∀ d1, d1 < 16 → ∀ d2, d2 < 16 →
    hexChar d1 = hexChar d2 → d1 = d2 := by decide

theorem hexDigitsAux_eq (fuel : Nat) :
    ∀ n, n ≤ fuel → hexDigitsAux fuel n = ((Nat.digits 16 n).map hexChar).reverse := by
  induction fuel with
  | zero =>
    intro n hn
    have : n = 0 := Nat.le_zero.mp hn
    subst this
    simp [hexDigitsAux]
  | succ fuel ih =>
    intro n hn
    by_cases h0 : n = 0
    · subst h0
      simp [hexDigitsAux]
    · rw [hexDigitsAux, if_neg h0]
      have hdiv : n / 16 ≤ fuel := by
        have := Nat.div_lt_self (Nat.pos_of_ne_zero h0) (by norm_num : 1 < 16)
        omega
      rw [ih (n / 16) hdiv,
        Nat.digits_def' (by norm_num : (1 : Nat) < 16) (Nat.pos_of_ne_zero h0)]
      simp

theorem hexDigits_of_ne_zero (n : Nat) (hn : n ≠ 0) :
    hexDigits n = ((Nat.digits 16 n).map hexChar).reverse := by
  rw [hexDigits, if_neg hn]
  exact hexDigitsAux_eq n n le_rfl

theorem hexDigits_ne_nil (n : Nat) : hexDigits n ≠ [] := by
  by_cases hn : n = 0
  · subst hn; simp [hexDigits]
  · rw [hexDigits_of_ne_zero n hn]
    simp [Nat.digits_ne_nil_iff_ne_zero.mpr hn]

theorem map_hexChar_inj :
    ∀ l1 l2 : List Nat, (∀ d ∈ l1, d < 16) → (∀ d ∈ l2, d < 16) →
      l1.map hexChar = l2.map hexChar → l1 = l2 := by
  intro l1
  induction l1 with
  | nil =>
    intro l2 _ _ h
    cases l2 with
    | nil => rfl
    | cons d2 t2 => simp at h
  | cons d1 t1 ih =>
    intro l2 hb1 hb2 h
    cases l2 with
    | nil => simp at h
    | cons d2 t2 =>
      simp only [List.map_cons, List.cons.injEq] at h
      have hd : d1 = d2 :=
        hexChar_inj16 d1 (hb1 d1 (by simp)) d2 (hb2 d2 (by simp)) h.1
      rw [hd, ih t2 (fun x hx => hb1 x (by simp [hx]))
        (fun x hx => hb2 x (by simp [hx])) h.2]

theorem hexDigits_head_ne_zero (n : Nat) (hn : n ≠ 0) :
    ∀ c ∈ (hexDigits n).head?, c ≠ '0' := by
  rw [hexDigits_of_ne_zero n hn, List.head?_reverse, List.getLast?_map]
  intro c hc
  cases hlast : (Nat.digits 16 n).getLast? with
  | none => rw [hlast] at hc; exact absurd hc (by simp)
  | some d =>
    rw [hlast] at hc
    simp only [Option.map_some', Option.mem_def, Option.some.injEq] at hc
    subst hc
    have hdmem : d ∈ Nat.digits 16 n := by
      have := List.mem_getLast?_eq_getLast (l := Nat.digits 16 n) (x := d)
        (by rw [hlast]; rfl)
      obtain ⟨hne, heq⟩ := this
      rw [heq]
      exact List.getLast_mem hne
    have hdlt : d < 16 := Nat.digits_lt_base (by norm_num) hdmem
    have hdne : d ≠ 0 := by
      have := List.mem_getLast?_eq_getLast (l := Nat.digits 16 n) (x := d)
        (by rw [hlast]; rfl)
      obtain ⟨hne, heq⟩ := this
      have hlastne := Nat.getLast_digit_ne_zero 16 hn
      rw [← heq] at hlastne
      exact hlastne
    intro hzeroc
    exact hdne ((hexChar_zero_iff d hdlt).mp hzeroc)

theorem hexDigits_injective (m n : Nat) (h : hexDigits m = hexDigits n) : m = n := by
  by_cases hm : m = 0 <;> by_cases hn : n = 0
  · rw [hm, hn]
  · exfalso
    rw [hm] at h
    have hc := hexDigits_head_ne_zero n hn
    cases hh : (hexDigits n).head? with
    | none =>
      have := List.head?_eq_none_iff.mp hh
      exact hexDigits_ne_nil n this
    | some c =>
      have hcz : c = '0' := by
        rw [← h] at hh
        exact (by simpa [hexDigits] using hh : '0' = c).symm
      exact (hc c (by rw [hh]; rfl)) hcz
  · exfalso
    rw [hn] at h
    have hc := hexDigits_head_ne_zero m hm
    cases hh : (hexDigits m).head? with
    | none =>
      have := List.head?_eq_none_iff.mp hh
      exact hexDigits_ne_nil m this
    | some c =>
      have hcz : c = '0' := by
        rw [h] at hh
        exact (by simpa [hexDigits] using hh : '0' = c).symm
      exact (hc c (by rw [hh]; rfl)) hcz
  · rw [hexDigits_of_ne_zero m hm, hexDigits_of_ne_zero n hn] at h
    have hmap := List.reverse_injective h
    have hdig := map_hexChar_inj (Nat.digits 16 m) (Nat.digits 16 n)
      (fun d hd => Nat.digits_lt_base (by norm_num) hd)
      (fun d hd => Nat.digits_lt_base (by norm_num) hd) hmap
    calc m = Nat.ofDigits 16 (Nat.digits 16 m) := (Nat.ofDigits_digits 16 m).symm
      _ = Nat.ofDigits 16 (Nat.digits 16 n) := by rw [hdig]
      _ = n := Nat.ofDigits_digits 16 n

theorem dropWhile_replicate_zero (k : Nat) (l : List Char) :
    List.dropWhile (fun c => c == '0') (List.replicate k '0' ++ l)
      = List.dropWhile (fun c => c == '0') l := by
  induction k with
  | zero => rfl
  | succ k ih => simp [List.replicate_succ, List.dropWhile_cons, ih]

theorem dropWhile_zero_hexDigits (n : Nat) :
    List.dropWhile (fun c => c == '0') (hexDigits n)
      = if n = 0 then [] else hexDigits n := by
  by_cases hn : n = 0
  · subst hn; simp [hexDigits]
  · rw [if_neg hn]
    cases hh : hexDigits n with
    | nil => exact absurd hh (hexDigits_ne_nil n)
    | cons c t =>
      have hc : c ≠ '0' := by
        refine hexDigits_head_ne_zero n hn c ?_
        rw [hh]; rfl
      rw [List.dropWhile_cons, if_neg (by simp [hc])]

/-- Two padded hexadecimal components are equal only for equal numbers,
whatever the pad widths. -/
theorem padStart_hexDigits_inj (m n k j : Nat)
    (h : padStartZeros (hexDigits m) k = padStartZeros (hexDigits n) j) : m = n := by
  have hd := congrArg (List.dropWhile (fun c => c == '0')) h
  rw [padStartZeros, padStartZeros, dropWhile_replicate_zero,
    dropWhile_replicate_zero, dropWhile_zero_hexDigits, dropWhile_zero_hexDigits] at hd
  by_cases hm : m = 0 <;> by_cases hn : n = 0
  · rw [hm, hn]
  · rw [if_pos hm, if_neg hn] at hd
    exact absurd hd.symm (hexDigits_ne_nil n)
  · rw [if_neg hm, if_pos hn] at hd
    exact absurd hd (hexDigits_ne_nil m)
  · rw [if_neg hm, if_neg hn] at hd
    exact hexDigits_injective m n hd

theorem hexDigits_length_le (n k : Nat) (hk : 1 ≤ k) (h : n < 16 ^ k) :
    (hexDigits n).length ≤ k := by
  by_cases hn : n = 0
  · subst hn; simpa [hexDigits] using hk
  · rw [hexDigits_of_ne_zero n hn]
    rw [List.length_reverse, List.length_map]
    have h1 := Nat.base_pow_length_digits_le 16 n (by norm_num) hn
    have h2 : (16 : Nat) ^ (Nat.digits 16 n).length < 16 ^ (k + 1) := by
      calc (16 : Nat) ^ (Nat.digits 16 n).length ≤ 16 * n := h1
        _ < 16 * 16 ^ k := by omega
        _ = 16 ^ (k + 1) := by ring
    have := (Nat.pow_lt_pow_iff_right (by norm_num : 1 < 16)).mp h2
    omega

theorem padStart_length_of_le (s : List Char) (k : Nat) (h : s.length ≤ k) :
    (padStartZeros s k).length = k := by
  simp only [padStartZeros, List.length_append, List.length_replicate]
  omega

theorem createProblemSetHash_data (problems : List Problem) :
    (createProblemSetHash problems).data
      = "problems-".data ++ (padStartZeros (hexDigits (jsonProblemSet problems).length) 6
        ++ ('-' :: padStartZeros (hexDigits (hashText (jsonProblemSet problems))) 8)) := by
  show ("problems-" ++ String.mk _ ++ "-" ++ String.mk _).data = _
  rw [String.data_append, String.data_append, String.data_append]
  rw [List.append_assoc, List.append_assoc]
  rfl

theorem hashText_lt (value : List Nat) : hashText value < 16 ^ 8 := by
  have h : hashText value < two32 := Nat.mod_lt _ (by norm_num [two32])
  calc hashText value < two32 := h
    _ = 16 ^ 8 := by norm_num [two32]

/-! ### Claim C9 -/

/-- C9, counterexample.  `collideA` and `collideB` differ in a note string
(`"KuL1HSVN"` vs `"26Je6ZBG"`), yet `createProblemSetHash` returns the same
string `"problems-000024-2385d838"` for both: the 32-bit FNV-1a digest
collides on their equal-length serializations, so the hash is not injective
on problem-set content. -/
theorem c9_counterexample :
    createProblemSetHash collideA = createProblemSetHash collideB ∧
      collideA ≠ collideB := by
  refine ⟨by rfl, by decide⟩

/-- C9 (amended): `createProblemSetHash` is a pure function of the problem
set's JSON serialization, and any two problem sets whose serializations have
different lengths receive different hash strings (the hash embeds the
serialized length).  It is not injective on content, however: two sets
differing only in a note string can collide (see the counterexample), and
after such a colliding edit the session stored under the old hash would be
restored rather than discarded. -/
theorem c9_amended (P Q : List Problem)
    (h : (jsonProblemSet P).length ≠ (jsonProblemSet Q).length) :
    createProblemSetHash P ≠ createProblemSetHash Q := by
  intro heq
  apply h
  have hdata : (createProblemSetHash P).data = (createProblemSetHash Q).data := by
    rw [heq]
  rw [createProblemSetHash_data, createProblemSetHash_data] at hdata
  have h1 := List.append_cancel_left hdata
  have hlenP : (padStartZeros (hexDigits (hashText (jsonProblemSet P))) 8).length = 8 :=
    padStart_length_of_le _ 8 (hexDigits_length_le _ 8 (by norm_num) (hashText_lt _))
  have hlenQ : (padStartZeros (hexDigits (hashText (jsonProblemSet Q))) 8).length = 8 :=
    padStart_length_of_le _ 8 (hexDigits_length_le _ 8 (by norm_num) (hashText_lt _))
  have h2 := List.append_inj' h1 (by simp [hlenP, hlenQ])
  exact padStart_hexDigits_inj _ _ 6 6 h2.1

/-- C9 witness: the empty set and `collideA` serialize to different lengths,
so their hashes differ. -/
theorem c9_witness :
    (jsonProblemSet []).length ≠ (jsonProblemSet collideA).length ∧
    createProblemSetHash [] ≠ createProblemSetHash collideA :=
  ⟨by decide, c9_amended [] collideA (by decide)⟩

end PhraseReorder
